import Mathlib

/-!
Shallow embedding of the Resumate matching/scoring engine
(`backend/utils/scoring.py`, `backend/utils/vector_ops.py`,
`backend/agents/matching_agent.py`) and proofs about the claims of the
specification.

Python `float` values are modelled as exact rationals (`ℚ`); the one
non-rational operation, `ratio ** 0.7`, is threaded through as an abstract
function parameter, and the external embedding provider (sentence
transformer + sklearn cosine similarity) is modelled as a black-box
structure, exactly as the spec treats it.  Python strings are modelled as
`String`/`List Char`; `str.lower()` is modelled on the ASCII range (all
constants of the program are ASCII).
-/

set_option maxRecDepth 20000

namespace Resumate

/-! ### Python string primitives -/

/-- The Python `\s` class / `str.strip()` whitespace (ASCII part). -/
def pyIsSpace (c : Char) : Bool :=
  c == ' ' || c == '\t' || c == '\n' || c == '\r' || c == '\x0b' || c == '\x0c'

/-- Remove the trailing run of characters satisfying `p` (used for
`str.strip()` / `str.rstrip(chars)`). -/
def dropTrailing (p : Char → Bool) (l : List Char) : List Char :=
  l.foldr (fun c acc => if acc.isEmpty && p c then [] else c :: acc) []

/-- Python `str.strip()` on a character list. -/
def pyStripL (l : List Char) : List Char :=
  dropTrailing pyIsSpace (l.dropWhile pyIsSpace)

/-- Python `str.strip()`. -/
def pyStrip (s : String) : String := String.mk (pyStripL s.data)

/-- Python `str.lower()` for the ASCII range (`A`-`Z` mapped to `a`-`z`). -/
def lowerChar (c : Char) : Char :=
  if h : 65 ≤ c.toNat ∧ c.toNat ≤ 90 then
    Char.ofNatAux (c.toNat + 32) (Or.inl (by omega))
  else c

/-- Python substring test `needle in hay` on character lists. -/
def containsSub (needle : List Char) : List Char → Bool
  | [] => needle.isEmpty
  | c :: t => needle.isPrefixOf (c :: t) || containsSub needle t

/-- Python `needle in hay` for strings (case untouched). -/
def pyIn (needle hay : String) : Bool := containsSub needle.data hay.data

/-! ### `normalize_skill` (scoring.py lines 89-118)

`re.sub(r"^[^:|\-]+[:|\-|]\s*", "", skill)`: the anchored pattern matches
iff the string starts with at least one character that is none of
`:`, `|`, `-`, followed by one of those three separators; the match (up to
and including the first separator, plus following whitespace) is removed. -/

/-- One of the separator characters of the category-prefix regex. -/
def sepChar (c : Char) : Bool := c == ':' || c == '|' || c == '-'

/-- Scan for the first separator; on success return everything after it
with following whitespace dropped (the `\s*` of the pattern). -/
def afterSepDrop : List Char → Option (List Char)
  | [] => none
  | c :: rest => if sepChar c then some (rest.dropWhile pyIsSpace) else afterSepDrop rest

/-- Model of `re.sub(r"^[^:|\-]+[:|\-|]\s*", "", skill)`. -/
def stripCategory (l : List Char) : List Char :=
  match l with
  | [] => []
  | c :: rest =>
    if sepChar c then c :: rest
    else match afterSepDrop rest with
      | some r => r
      | none => c :: rest

/-- Case-insensitive literal match: strip `pat` (given lowercase) from the
front of `l`, comparing lowercased input characters. -/
def stripCI : List Char → List Char → Option (List Char)
  | [], l => some l
  | _ :: _, [] => none
  | p :: ps, c :: cs => if lowerChar c == p then stripCI ps cs else none

/-- Model of `\s+` of the regex: require at least one whitespace character, then
greedily drop the whole run. -/
def wsPlus : List Char → Option (List Char)
  | [] => none
  | c :: rest => if pyIsSpace c then some (rest.dropWhile pyIsSpace) else none

/-- Alternative `base ++ "s?" ++ ":"` of the label regex (the optional `s`
is tried greedily first, exactly like the regex engine). -/
def altS (base : String) (l : List Char) : Option (List Char) :=
  match stripCI (base.data ++ ['s', ':']) l with
  | some r => some r
  | none => stripCI (base.data ++ [':']) l

/-- Alternative `agentic\s+ai:` of the label regex. -/
def altAgentic (l : List Char) : Option (List Char) :=
  match stripCI "agentic".data l with
  | some r =>
    match wsPlus r with
    | some r2 => stripCI "ai:".data r2
    | none => none
  | none => none

/-- Alternative `ai/ml\s+tools?:` of the label regex. -/
def altAiml (l : List Char) : Option (List Char) :=
  match stripCI "ai/ml".data l with
  | some r =>
    match wsPlus r with
    | some r2 => altS "tool" r2
    | none => none
  | none => none

/-- First matching alternative wins (regex alternation). -/
def tryAlts : List (List Char → Option (List Char)) → List Char → Option (List Char)
  | [], _ => none
  | f :: fs, l =>
    match f l with
    | some r => some r
    | none => tryAlts fs l

/-- The alternatives of
`^(skills?|technologies?|tools?|languages?|frameworks?|databases?|platforms?|agentic\s+ai|ai/ml\s+tools?):\s*`. -/
def labelAlts : List (List Char → Option (List Char)) :=
  [altS "skill", altS "technologie", altS "tool", altS "language",
   altS "framework", altS "database", altS "platform", altAgentic, altAiml]

/-- Model of `re.sub` of the label regex (IGNORECASE), including the trailing `\s*`. -/
def stripLabelsOnce (l : List Char) : List Char :=
  match tryAlts labelAlts l with
  | some r => r.dropWhile pyIsSpace
  | none => l

/-- The punctuation class `[.,:;!?()\[\]\x7b\x7d]` removed at the end of
`normalize_skill` (braces written escaped). -/
def punctCls (c : Char) : Bool :=
  c == '.' || c == ',' || c == ':' || c == ';' || c == '!' || c == '?' ||
  c == '(' || c == ')' || c == '[' || c == ']' || c == '\x7b' || c == '\x7d'

/-- Model of `normalize_skill` (scoring.py 89-118) on a character list. -/
def normalize_skill_list (l : List Char) : List Char :=
  let l1 := stripCategory l
  let l2 := pyStripL l1
  let l3 := stripLabelsOnce l2
  let l4 := pyStripL l3
  let l5 := pyStripL (l4.map lowerChar)
  let l6 := l5.filter (fun c => !(punctCls c))
  pyStripL l6

/-- Model of `normalize_skill` (scoring.py 89-118).  (The Python `if not skill`
guard returns `""` for `""`, which the pipeline does anyway.) -/
def normalize_skill (s : String) : String := String.mk (normalize_skill_list s.data)

/-! ### Python `round(x, 2)`

CPython rounds floats half-to-even.  Modelled exactly on `ℚ`; no claim of
the spec depends on tie behaviour (all bounds compared against integers). -/

/-- Round half to even. -/
def roundHalfEven (q : ℚ) : ℤ :=
  let f := ⌊q⌋
  let r := q - (f : ℚ)
  if r < 1/2 then f
  else if (1 : ℚ)/2 < r then f + 1
  else if f % 2 = 0 then f else f + 1

/-- Python `round(q, 2)`. -/
def pyRound2 (q : ℚ) : ℚ := (roundHalfEven (q * 100) : ℚ) / 100

/-! ### Synonym table and expansion (scoring.py 11-31, 121-144) -/

/-- The `SYNONYMS` dictionary, verbatim. -/
def SYNONYMS : List (String × List String) :=
  [("rest api", ["restful api", "restful apis", "rest apis", "api development", "rest services"]),
   ("nosql", ["no sql", "mongodb", "mongo", "non-relational", "document database"]),
   ("llm", ["large language model", "language model", "llms", "transformer model", "generative ai"]),
   ("nlp", ["natural language processing", "text processing", "language understanding"]),
   ("ml", ["machine learning", "ml algorithms", "predictive modeling"]),
   ("deep learning", ["neural networks", "cnn", "rnn", "lstm", "neural net"]),
   ("ai", ["artificial intelligence", "intelligent systems"]),
   ("aws", ["amazon web services", "amazon aws", "ec2", "s3", "lambda"]),
   ("gcp", ["google cloud platform", "google cloud", "gcp services"]),
   ("azure", ["microsoft azure", "azure cloud"]),
   ("ci/cd", ["continuous integration", "continuous deployment", "cicd", "devops"]),
   ("api", ["apis", "application programming interface", "web api", "rest api"]),
   ("docker", ["containerization", "containers", "docker containers"]),
   ("kubernetes", ["k8s", "container orchestration", "kube"]),
   ("python", ["python programming", "python3", "python development"]),
   ("javascript", ["js", "node.js", "nodejs", "typescript"]),
   ("java", ["java programming", "java development", "spring boot"]),
   ("sql", ["database", "relational database", "mysql", "postgresql"]),
   ("git", ["version control", "github", "gitlab", "source control"])]

/-- Model of `expand_skill_synonyms` (scoring.py 121-144).  Python returns a set;
modelled as a list whose membership is the set membership (all uses below
are set-level: unions, intersections and cardinalities after dedup). -/
def expand_skill_synonyms (skill : String) : List String :=
  let n := normalize_skill skill
  n :: SYNONYMS.flatMap (fun kv =>
    let k := normalize_skill kv.1
    let syns := kv.2.map normalize_skill
    if n = k ∨ n ∈ syns then k :: syns else [])

/-! ### `normalize_text` (scoring.py 48-86) -/

/-- The list `SECTION_PREFIXES`, verbatim. -/
def sectionLabels : List String :=
  ["ai/ml tools:", "frameworks & tools:", "languages:", "technologies:",
   "skills:", "technical skills:", "programming languages:", "tools:",
   "software:", "platforms:"]

/-- One pass of the prefix loop: `if text.startswith(prefix): text =
text[len(prefix):].strip()`. -/
def stripSection (l : List Char) (lab : String) : List Char :=
  if lab.data.isPrefixOf l then pyStripL (l.drop lab.data.length) else l

/-- Character class kept by `re.sub(r"[^a-z0-9\s]", "", text)`. -/
def ntAllowed (c : Char) : Bool :=
  ('a' ≤ c && c ≤ 'z') || ('0' ≤ c && c ≤ '9') || pyIsSpace c

/-- Model of `re.sub(r"\s+", " ", text)`: replace each maximal whitespace run by a
single space (the flag records whether the previous character was part of
a run). -/
def squeezeAux : Bool → List Char → List Char
  | _, [] => []
  | prevWs, c :: rest =>
    if pyIsSpace c then
      if prevWs then squeezeAux true rest else ' ' :: squeezeAux true rest
    else c :: squeezeAux false rest

/-- Model of `re.sub(r"\s+", " ", text)`. -/
def squeezeWs (l : List Char) : List Char := squeezeAux false l

/-- Model of `normalize_text` (scoring.py 48-86). -/
def normalize_text (s : String) : String :=
  if s = "" then ""
  else
    let t0 := s.data.map lowerChar
    let t1 := sectionLabels.foldl stripSection t0
    let t2 := t1.map (fun c => if c == '-' || c == '/' then ' ' else c)
    let t3 := t2.filter ntAllowed
    String.mk (pyStripL (squeezeWs t3))

/-! ### `extract_skills_dynamic` (scoring.py 147-179) -/

/-- Character class kept by `re.sub(r"[^a-z0-9\s,\.\-\&\+/]", " ", ...)`
(all other characters are replaced by a space). -/
def dynAllowed (c : Char) : Bool :=
  ('a' ≤ c && c ≤ 'z') || ('0' ≤ c && c ≤ '9') || pyIsSpace c ||
  c == ',' || c == '.' || c == '-' || c == '&' || c == '+' || c == '/'

/-- The separators of `re.split(r"[,\n;•|]", ...)`. -/
def dynSep (c : Char) : Bool :=
  c == ',' || c == '\n' || c == ';' || c == '•' || c == '|'

/-- Model of `re.split` on a character predicate, keeping empty parts (as Python
does). -/
def splitChars (isSep : Char → Bool) : List Char → List (List Char)
  | [] => [[]]
  | c :: rest =>
    let r := splitChars isSep rest
    if isSep c then [] :: r
    else
      match r with
      | [] => [[c]]
      | p :: ps => (c :: p) :: ps

/-- The stop words excluded by `extract_skills_dynamic`. -/
def dynStop : List String := ["and", "or", "the", "a", "an", "with", "using"]

/-- Alternatives of `^(skills?|technologies?|tools?|languages?|frameworks?):\s*`
(the text is already lowercased when this regex is applied). -/
def dynLabelAlts : List (List Char → Option (List Char)) :=
  [altS "skill", altS "technologie", altS "tool", altS "language", altS "framework"]

/-- Model of `re.sub` of the part-level label regex, including the trailing `\s*`. -/
def stripDynLabel (l : List Char) : List Char :=
  match tryAlts dynLabelAlts l with
  | some r => r.dropWhile pyIsSpace
  | none => l

/-- Model of `extract_skills_dynamic` (scoring.py 147-179). -/
def extract_skills_dynamic (text : String) : List String :=
  if text = "" then []
  else
    let tl := text.data.map lowerChar
    let tc := tl.map (fun c => if dynAllowed c then c else ' ')
    (splitChars dynSep tc).filterMap (fun p0 =>
      let p := pyStripL p0
      if 2 < p.length ∧ p.length < 50 then
        let p2 := pyStripL (stripDynLabel p)
        if p2 ≠ [] ∧ String.mk p2 ∉ dynStop then some (String.mk p2) else none
      else none)

/-! ### Entry-level detection and experience relevance (scoring.py 398-482) -/

/-- The list `entry_level_indicators`, verbatim (scoring.py 412-417). -/
def entryTerms : List String :=
  ["intern", "internship", "fresher", "fresh", "trainee",
   "entry level", "entry-level", "junior", "0-2", "0–2",
   "1-2", "1–2", "1-3", "1–3", "student", "graduate",
   "new grad", "new graduate"]

/-- Model of `is_entry_level_role` (scoring.py 398-419). -/
def is_entry_level_role (text : String) : Bool :=
  if text = "" then false
  else entryTerms.any (fun t => containsSub t.data (text.data.map lowerChar))

/-- Model of `compute_experience_relevance` (scoring.py 422-482).  `pow07` is the
abstract model of the floating-point power `ratio ** 0.7`; every theorem
below holds for an arbitrary such function. -/
def compute_experience_relevance (pow07 : ℚ → ℚ)
    (resume_experience_years job_required_experience : ℚ)
    (resume_text jd_text : String) : ℚ :=
  if resume_text ≠ "" ∧ jd_text ≠ "" ∧
      is_entry_level_role resume_text ∧ is_entry_level_role jd_text then 1
  else if job_required_experience = 0 then 1
  else if job_required_experience ≤ resume_experience_years then 1
  else if job_required_experience ≤ 2 then
    if 0 < resume_experience_years then
      min 1 (0.7 + resume_experience_years / job_required_experience * 0.3)
    else 0.6
  else
    let rel :=
      if 0 < job_required_experience then
        pow07 (resume_experience_years / job_required_experience)
      else 1
    let rel2 := if 0 < resume_experience_years then max 0.3 rel else rel
    max 0 (min 1 rel2)

/-! ### Score-distribution normalization and the suitability aggregator
(scoring.py 485-615) -/

/-- Model of `normalize_score_for_human_distribution` (scoring.py 485-518).
`np.interp(p, [30, 80], [40, 95]) = 40 + (p - 30) * (55/50)` on `[30, 80]`,
and `np.interp(p, [0, 30], [0, 40]) = p * (40/30)` on `(0, 30)`. -/
def normalize_score_for_human_distribution (score : ℚ) : ℚ :=
  let p := score * 100
  let np :=
    if 30 ≤ p then
      if p ≤ 80 then 40 + (p - 30) * (55 / 50)
      else min 95 (40 + (p - 30) * (55 / 50))
    else if 0 < p then p * (40 / 30)
    else 0
  max 0 (min 0.95 (np / 100))

/-- A three-component weight dictionary (`semantic` / `skills` /
`experience`). -/
structure W3 where
  semantic : ℚ
  skills : ℚ
  experience : ℚ

/-- Model of `compute_suitability_score` (scoring.py 521-615).  The
`candidate_experience` parameter of the Python function is unused in its
body and therefore omitted. -/
def compute_suitability_score (semIn skillIn expIn : ℚ) (weightsIn : Option W3)
    (jd_text : String) (normalize : Bool) : ℚ :=
  let sem := max 0 (min 1 semIn)
  let skill := max 0 (min 1 skillIn)
  let expr := max 0 (min 1 expIn)
  let w : W3 :=
    match weightsIn with
    | none =>
      if (if jd_text ≠ "" then is_entry_level_role jd_text else false) then
        ⟨0.65, 0.35, 0⟩
      else ⟨0.55, 0.30, 0.15⟩
    | some w0 =>
      let t := w0.semantic + w0.skills + w0.experience
      if 0 < t then ⟨w0.semantic / t, w0.skills / t, w0.experience / t⟩ else w0
  let score0 := w.semantic * sem + w.skills * skill + w.experience * expr
  let semP := sem * 100
  let skillP := skill * 100
  let score1 := if semP < 40 then min score0 0.40 else score0
  let score2 := if normalize then normalize_score_for_human_distribution score1 else score1
  let score3 := if 85 < semP ∧ 70 < skillP then min 1 (score2 + 0.05) else score2
  let score4 :=
    if 90 < semP ∧ 80 < skillP then
      let s := max score3 0.95
      if 0.95 ≤ s ∧ 95 < semP then min 1 (s * 1.02) else s
    else score3
  let score5 := if 95 < semP ∧ score4 < 1 then min 1 (score4 * 1.01) else score4
  max 0 (min 100 (pyRound2 (score5 * 100)))

/-! ### Python sets over strings

Python `set` iteration order is implementation-defined; it is modelled as
first-insertion order.  Every result proved below is independent of that
choice (memberships, cardinalities, or lists that are sorted afterwards). -/

/-- Deduplicate keeping the first occurrence (insertion order of a set). -/
def dedupFirstAux [DecidableEq α] (seen : List α) : List α → List α
  | [] => []
  | x :: xs => if x ∈ seen then dedupFirstAux seen xs else x :: dedupFirstAux (x :: seen) xs

/-- Deduplicate keeping the first occurrence. -/
def dedupFirst [DecidableEq α] (l : List α) : List α := dedupFirstAux [] l

/-! ### Skill overlap scorers (scoring.py 182-347) -/

/-- The union `\x7bskill\x7d ∪ expand_skill_synonyms(skill)` accumulated over a
skill list (set membership is list membership). -/
def skillSetOf (skills : List String) : List String :=
  skills.flatMap (fun s => normalize_skill s :: expand_skill_synonyms s)

/-- The keyword fallback branch of `compute_skill_overlap_score`
(scoring.py 308-347), taking the two already-normalized skill lists. -/
def lexicalOverlapScore (resumeN jobN : List String) : ℚ :=
  if jobN = [] then 0
  else
    let rset := resumeN.flatMap (fun s => s :: expand_skill_synonyms s)
    let jset := dedupFirst (jobN.flatMap (fun s => s :: expand_skill_synonyms s))
    if jset = [] then 0
    else
      let mr : ℚ := ((jset.filter (fun x => decide (x ∈ rset))).length : ℚ) / (jset.length : ℚ)
      let os :=
        if 0.9 ≤ mr then min 1 (mr * 1.05)
        else if 0.7 ≤ mr then min 1 (mr * 1.02)
        else mr
      min 1 (max 0 os)

/-- Black-box model of the embedding provider as used by
`compute_semantic_skill_overlap`: `pairSim jd res` is the cosine-similarity
matrix of the encoded token lists (row `i` for jd token `i`);
`Except.error` models an exception raised inside the `try` block
(scoring.py 211-236). -/
structure SimModel where
  pairSim : List String → List String → Except Unit (List (List ℚ))

/-- Model of `np.max` over a similarity-matrix row (rows are non-empty for a
well-formed provider; `[]` is given the neutral value 0). -/
def listMax : List ℚ → ℚ
  | [] => 0
  | [x] => x
  | x :: y :: t => max x (listMax (y :: t))

/-- The dict `\x7bnormalize_skill(s): s for s in skills\x7d`: the last skill with
the given normalized form wins. -/
def lastWithKey (skills : List String) (n : String) : String :=
  (skills.reverse.find? (fun s => normalize_skill s == n)).getD ""

/-- Model of `compute_skill_overlap_fallback` (scoring.py 239-267). -/
def compute_skill_overlap_fallback (jd_skills resume_skills : List String) :
    List String × List String × ℚ :=
  let jdN := dedupFirst (jd_skills.map normalize_skill)
  let rsN := resume_skills.map normalize_skill
  let matched := (jdN.filter (fun n => decide (n ∈ rsN))).map (lastWithKey jd_skills)
  let missing := (jdN.filter (fun n => decide (n ∉ rsN))).map (lastWithKey jd_skills)
  let ov : ℚ :=
    if jd_skills = [] then 0 else (matched.length : ℚ) / (jd_skills.length : ℚ)
  (matched, missing, ov)

/-- Model of `compute_semantic_skill_overlap` (scoring.py 182-236). -/
def compute_semantic_skill_overlap (m : SimModel) (jd_text resume_text : String)
    (threshold : ℚ) : List String × List String × ℚ :=
  let jd_skills := extract_skills_dynamic jd_text
  let resume_skills := extract_skills_dynamic resume_text
  if jd_skills = [] then ([], [], 0)
  else if resume_skills = [] then ([], jd_skills, 0)
  else
    match m.pairSim jd_skills resume_skills with
    | .error _ => compute_skill_overlap_fallback jd_skills resume_skills
    | .ok simM =>
      let matched :=
        (jd_skills.enum.filter (fun p => decide (threshold ≤ listMax (simM.getD p.1 [])))).map Prod.snd
      let missing :=
        (jd_skills.enum.filter (fun p => decide (¬ threshold ≤ listMax (simM.getD p.1 [])))).map Prod.snd
      let ov : ℚ :=
        if jd_skills = [] then 0 else (matched.length : ℚ) / (jd_skills.length : ℚ)
      (matched, missing, ov)

/-- Model of `compute_skill_overlap_score` (scoring.py 270-347). -/
def compute_skill_overlap_score (resume_skills job_skills : List String)
    (modelIn : Option SimModel) (jd_text resume_text : String) : ℚ :=
  let resumeN := (resume_skills.filter (fun s => decide (s ≠ "" ∧ normalize_skill s ≠ ""))).map normalize_skill
  let jobN := (job_skills.filter (fun s => decide (s ≠ "" ∧ normalize_skill s ≠ ""))).map normalize_skill
  match modelIn with
  | some m =>
    if jd_text ≠ "" ∧ resume_text ≠ "" then
      let ov := (compute_semantic_skill_overlap m jd_text resume_text 0.75).2.2
      if 0 < ov then min 1 (max 0 ov)
      else lexicalOverlapScore resumeN jobN
    else lexicalOverlapScore resumeN jobN
  | none => lexicalOverlapScore resumeN jobN

/-! ### Matched / missing skill extraction (scoring.py 618-705) -/

/-- Model of `sorted` comparison on strings: lexicographic by code point. -/
def lexLe : List Char → List Char → Bool
  | [], _ => true
  | _ :: _, [] => false
  | a :: la, b :: lb =>
    if a.toNat < b.toNat then true
    else if b.toNat < a.toNat then false
    else lexLe la lb

/-- Stable insertion into a sorted list: `x` goes before the first element
`y` with `le x y`. -/
def insertLe (le : α → α → Bool) (x : α) : List α → List α
  | [] => [x]
  | y :: ys => if le x y then x :: y :: ys else y :: insertLe le x ys

/-- Stable insertion sort.  The Python `sorted`/`list.sort` (timsort) is also
stable, and any two stable sorts with the same total preorder produce the
same output, so this is an exact model. -/
def sortLe (le : α → α → Bool) : List α → List α
  | [] => []
  | x :: xs => insertLe le x (sortLe le xs)

/-- Model of `sorted` on string lists. -/
def sortStrings (l : List String) : List String :=
  sortLe (fun a b => lexLe a.data b.data) l

/-- Model of `extract_matching_skills` (scoring.py 618-660). -/
def extract_matching_skills (resume_skills job_skills : List String) : List String :=
  let rset := skillSetOf resume_skills
  let jset := skillSetOf job_skills
  let matchingN := (dedupFirst rset).filter (fun n => decide (n ∈ jset))
  let rkeys := resume_skills.map normalize_skill
  let pick := (matchingN.filter (fun n => decide (n ∈ rkeys))).map (lastWithKey resume_skills)
  sortStrings (dedupFirst pick)

/-- Model of `extract_missing_skills` (scoring.py 663-705). -/
def extract_missing_skills (resume_skills job_skills : List String) : List String :=
  let rset := skillSetOf resume_skills
  let jset := skillSetOf job_skills
  let missingN := (dedupFirst jset).filter (fun n => decide (n ∉ rset))
  let jkeys := job_skills.map normalize_skill
  let pick := (missingN.filter (fun n => decide (n ∈ jkeys))).map (lastWithKey job_skills)
  sortStrings (dedupFirst pick)

/-! ### `MatchingAgent` (matching_agent.py) -/

/-- Parsed resume record (§3 ParsedDocument, resume side).  `name` is
`Option` because `match` reads it with two different dict defaults
(`""` for the text blob, `"Unknown"` for the result). -/
structure ResumeData where
  name : Option String
  skills : List String
  experience_years : ℚ
  raw_text : String
  education : String
  certifications : List String

/-- Parsed job-description record (§3 ParsedDocument, job side). -/
structure JDData where
  title : String
  all_skills : List String
  skills_required : List String
  skills_preferred : List String
  responsibilities : List String
  requirements : List String
  experience_required : ℚ
  raw_text : String

/-- The record returned by `MatchingAgent.match` (matching_agent.py 241-251). -/
structure MatchResult where
  candidate_name : String
  suitability_score : ℚ
  semantic_similarity : ℚ
  skill_overlap : ℚ
  experience_relevance : ℚ
  matching_skills : List String
  missing_skills : List String
  resume_data : ResumeData
  jd_data : JDData

/-- The external collaborators of `MatchingAgent.match`: the cached
sentence-transformer model (`none` = load failure), the document embedder
(`Except.error` = exception, caught in `match`), the floating-point cosine
of `utils/vector_ops.py`, the floating-point power used by the experience
scorer, and the Python `str()` rendering of the years float (used only to
build a fallback text blob). -/
structure Ext where
  model : Option SimModel
  generate_embeddings : String → Except Unit (List ℚ)
  cosine : List ℚ → List ℚ → ℚ
  pow07 : ℚ → ℚ
  floatStr : ℚ → String

/-- Model of `" ".join(str(c) for c in comps if c)`. -/
def joinIf (comps : List String) : String :=
  String.intercalate " " (comps.filter (fun c => decide (c ≠ "")))

/-- Model of `" ".join(l)`. -/
def joinAll (l : List String) : String := String.intercalate " " l

/-- The resume text blob of `match` (matching_agent.py 73-81). -/
def resumeBlob (ext : Ext) (rd : ResumeData) : String :=
  if rd.raw_text = "" ∨ (pyStrip rd.raw_text).length < 50 then
    joinIf ([rd.name.getD "", rd.education] ++ rd.skills ++
            [ext.floatStr rd.experience_years] ++ rd.certifications)
  else rd.raw_text

/-- The JD text blob of `match` (matching_agent.py 83-91). -/
def jdBlob (jd : JDData) : String :=
  if jd.raw_text = "" ∨ (pyStrip jd.raw_text).length < 50 then
    joinIf [jd.title, joinAll jd.skills_required, joinAll jd.skills_preferred,
            joinAll jd.responsibilities, joinAll jd.requirements]
  else jd.raw_text

/-- The document-embedding step (matching_agent.py 104-112): one `try`
block wraps both calls, so a failure of either leaves no embeddings. -/
def embPairOf (ext : Ext) (rd : ResumeData) (jd : JDData) : Option (List ℚ × List ℚ) :=
  match ext.generate_embeddings (normalize_text (resumeBlob ext rd)) with
  | .error _ => none
  | .ok r =>
    match ext.generate_embeddings (normalize_text (jdBlob jd)) with
    | .error _ => none
    | .ok j => some (r, j)

/-- The semantic-similarity step (matching_agent.py 114-121): Python list
truthiness makes an empty embedding count as unavailable. -/
def semanticOf (ext : Ext) (rd : ResumeData) (jd : JDData) : ℚ :=
  match embPairOf ext rd jd with
  | some (r, j) => if j ≠ [] ∧ r ≠ [] then max 0 (min 1 (ext.cosine r j)) else 0
  | none => 0

/-- The matched / missing list selection of `match`
(matching_agent.py 173-194), before the clean-up pass. -/
def rawSkillLists (ext : Ext) (rd : ResumeData) (jd : JDData) :
    List String × List String :=
  match ext.model with
  | some m =>
    let res := compute_semantic_skill_overlap m (normalize_text (jdBlob jd))
      (normalize_text (resumeBlob ext rd)) 0.75
    if res.1 ≠ [] then (res.1, res.2.1.take 10)
    else (extract_matching_skills rd.skills jd.all_skills,
          (extract_missing_skills rd.skills jd.skills_required).take 10)
  | none =>
    (extract_matching_skills rd.skills jd.all_skills,
     (extract_missing_skills rd.skills jd.skills_required).take 10)

/-- The trailing-punctuation class of `skill.strip().rstrip(".,;:!?")`. -/
def dispPunct (c : Char) : Bool :=
  c == '.' || c == ',' || c == ';' || c == ':' || c == '!' || c == '?'

/-- Model of `skill.strip().rstrip(".,;:!?")` (matching_agent.py 214/225). -/
def displayClean (s : String) : String :=
  String.mk (dropTrailing dispPunct (pyStripL s.data))

/-- The clean-up loop of `match` (matching_agent.py 206-227): deduplicate
by normalized form (first seen wins, empty normalized forms dropped), and
display-clean each kept entry (dropping entries whose cleaned form is
empty). -/
def cleanSkillGo (seen : List String) : List String → List String
  | [] => []
  | s :: rest =>
    let n := normalize_skill s
    if n ≠ "" ∧ n ∉ seen then
      let c := displayClean s
      if c ≠ "" then c :: cleanSkillGo (n :: seen) rest
      else cleanSkillGo (n :: seen) rest
    else cleanSkillGo seen rest

/-- The clean-up loop of `match` (matching_agent.py 206-227). -/
def cleanSkillList (l : List String) : List String := cleanSkillGo [] l

/-- Modelled from the spec (§3 MatchResult: sequences are "deduplicated
... order = discovery then dedup"): keep, in discovery order, the first
element of each nonempty normalized-form class, dropping later
duplicates.  Used to characterize the clean-up loop extensionally. -/
def firstOccurrenceDedupAux (seen : List String) : List String → List String
  | [] => []
  | s :: rest =>
    if normalize_skill s ≠ "" ∧ normalize_skill s ∉ seen then
      s :: firstOccurrenceDedupAux (normalize_skill s :: seen) rest
    else firstOccurrenceDedupAux seen rest

/-- First-occurrence, order-preserving dedup by nonempty normalized form. -/
def firstOccurrenceDedup (l : List String) : List String :=
  firstOccurrenceDedupAux [] l

/-- Model of `MatchingAgent.match` (matching_agent.py 38-251).  (`match` is a Lean
keyword, hence the name.)  Exception handlers around total sub-steps are
dropped: every failure mode of the Python code is internalized in `Ext`. -/
def matchResume (ext : Ext) (rd : ResumeData) (jd : JDData)
    (weightsIn : Option W3) : MatchResult :=
  let weights := weightsIn.getD ⟨0.6, 0.3, 0.1⟩
  let resume_text := resumeBlob ext rd
  let jd_text := jdBlob jd
  let semantic := semanticOf ext rd jd
  let skill_overlap := compute_skill_overlap_score rd.skills jd.all_skills
    ext.model (normalize_text jd_text) (normalize_text resume_text)
  let exp_rel := compute_experience_relevance ext.pow07 rd.experience_years
    jd.experience_required resume_text jd_text
  let suit := compute_suitability_score semantic skill_overlap exp_rel
    (some weights) jd_text true
  let lists := rawSkillLists ext rd jd
  { candidate_name := rd.name.getD "Unknown"
    suitability_score := pyRound2 (max 0 (min 100 suit))
    semantic_similarity := pyRound2 (max 0 (min 100 (semantic * 100)))
    skill_overlap := pyRound2 (max 0 (min 100 (skill_overlap * 100)))
    experience_relevance := pyRound2 (max 0 (min 100 (exp_rel * 100)))
    matching_skills := cleanSkillList lists.1
    missing_skills := cleanSkillList (lists.2.take 10)
    resume_data := rd
    jd_data := jd }

/-- Model of `results.sort(key=lambda x: x["suitability_score"], reverse=True)`:
a stable descending sort by score. -/
def sortDescByScore (l : List MatchResult) : List MatchResult :=
  sortLe (fun a b => decide (b.suitability_score ≤ a.suitability_score)) l

/-- Model of `MatchingAgent.batch_match` (matching_agent.py 253-283).  The modelled
`matchResume` is total, so the per-resume `try/except/continue` never
fires. -/
def batch_match (ext : Ext) (resumes : List ResumeData) (jd : JDData)
    (weightsIn : Option W3) : List MatchResult :=
  sortDescByScore (resumes.map (fun rd => matchResume ext rd jd weightsIn))

/-- Modelled from the spec (for claim C7 only, §3 MatchResult: sequences
"deduplicated, display-cleaned, order = discovery then dedup"): keep the
first occurrence of each normalized-form class in discovery order and
display-clean the kept entries. -/
def specOrderedDedup (l : List String) : List String := cleanSkillList l

/-- Truthiness test: whether `match` had two usable (present and non-empty) document
embeddings, i.e. the Python `if jd_embedding and resume_embedding`
(matching_agent.py 115). -/
def embUsable (ext : Ext) (rd : ResumeData) (jd : JDData) : Bool :=
  match embPairOf ext rd jd with
  | some (r, j) => !j.isEmpty && !r.isEmpty
  | none => false

/-- A provider whose batch-encode always succeeds (never raises). -/
def simOk : SimModel := ⟨fun _ _ => Except.ok []⟩

/-- External collaborators with no usable embedder and no model (the
degraded path of `match`). -/
def extNoEmbed : Ext :=
  { model := none
    generate_embeddings := fun _ => Except.error ()
    cosine := fun _ _ => 0
    pow07 := fun q => q
    floatStr := fun _ => "0.0" }

/-- A concrete resume whose skills are discovered in the order `b`, `a`. -/
def rdSample : ResumeData :=
  { name := some "R"
    skills := ["b", "a"]
    experience_years := 0
    raw_text := "this resume text describes years of seasoned engineering work"
    education := ""
    certifications := [] }

/-- A concrete job description requiring the same two skills `b`, `a`. -/
def jdSample : JDData :=
  { title := ""
    all_skills := ["b", "a"]
    skills_required := ["b", "a"]
    skills_preferred := []
    responsibilities := []
    requirements := []
    experience_required := 0
    raw_text := "this posting text describes a seasoned engineering position now" }

/-! ## Helper lemmas -/

theorem dropTrailing_nil (p : Char → Bool) : dropTrailing p [] = [] := rfl

theorem dropTrailing_cons (p : Char → Bool) (c : Char) (l : List Char) :
    dropTrailing p (c :: l) =
      if (dropTrailing p l).isEmpty && p c then [] else c :: dropTrailing p l := rfl

theorem mem_of_mem_dropTrailing {p : Char → Bool} {a : Char} :
    ∀ {l : List Char}, a ∈ dropTrailing p l → a ∈ l := by
  intro l
  induction l with
  | nil => simp [dropTrailing_nil]
  | cons c t ih =>
    rw [dropTrailing_cons]
    intro h
    split at h
    · simp at h
    · rcases List.mem_cons.1 h with h | h
      · exact h ▸ List.mem_cons_self _ _
      · exact List.mem_cons_of_mem _ (ih h)

theorem dropTrailing_idem (p : Char → Bool) :
    ∀ l : List Char, dropTrailing p (dropTrailing p l) = dropTrailing p l := by
  intro l
  induction l with
  | nil => rfl
  | cons c t ih =>
    rw [dropTrailing_cons]
    by_cases h : (dropTrailing p t).isEmpty && p c
    · rw [if_pos h]; rfl
    · rw [if_neg h, dropTrailing_cons, ih, if_neg h]

theorem dropTrailing_cons_structure (p : Char → Bool) (c : Char) (l : List Char)
    (h : dropTrailing p (c :: l) ≠ []) :
    dropTrailing p (c :: l) = c :: dropTrailing p l := by
  rw [dropTrailing_cons] at h ⊢
  by_cases hc : ((dropTrailing p l).isEmpty && p c) = true
  · rw [if_pos hc] at h; exact absurd rfl h
  · rw [if_neg hc]

theorem dropWhile_head_false (p : Char → Bool) :
    ∀ (l : List Char) (c : Char) (t : List Char), l.dropWhile p = c :: t → p c = false := by
  intro l
  induction l with
  | nil => intro c t h; simp [List.dropWhile] at h
  | cons a l ih =>
    intro c t h
    rw [List.dropWhile_cons] at h
    by_cases ha : p a = true
    · rw [if_pos ha] at h; exact ih c t h
    · rw [if_neg ha] at h
      obtain ⟨rfl, -⟩ := List.cons.injEq .. ▸ h
      · simpa using ha

theorem pyStripL_idem (l : List Char) : pyStripL (pyStripL l) = pyStripL l := by
  unfold pyStripL
  set A := l.dropWhile pyIsSpace with hA
  have hdw : (dropTrailing pyIsSpace A).dropWhile pyIsSpace = dropTrailing pyIsSpace A := by
    cases hm : dropTrailing pyIsSpace A with
    | nil => rfl
    | cons c t =>
      cases hA2 : A with
      | nil => rw [hA2] at hm; simp [dropTrailing_nil] at hm
      | cons c0 t0 =>
        rw [hA2] at hm
        have hs := dropTrailing_cons_structure pyIsSpace c0 t0 (by rw [hm]; simp)
        rw [hs] at hm
        have hc0 : pyIsSpace c0 = false :=
          dropWhile_head_false pyIsSpace l c0 t0 (hA ▸ hA2)
        cases hm
        rw [List.dropWhile_cons, hc0]
        simp
  rw [hdw, dropTrailing_idem]

theorem mem_of_mem_pyStripL {a : Char} {l : List Char} (h : a ∈ pyStripL l) : a ∈ l := by
  unfold pyStripL at h
  exact (List.dropWhile_sublist _).subset (mem_of_mem_dropTrailing h)

theorem mem_dropWhile_of_not {p : Char → Bool} {d : Char} :
    ∀ {l : List Char}, d ∈ l → p d = false → d ∈ l.dropWhile p := by
  intro l
  induction l with
  | nil => intro h _; cases h
  | cons c t ih =>
    intro hm hd
    rw [List.dropWhile_cons]
    by_cases hc : p c = true
    · rw [if_pos hc]
      rcases List.mem_cons.1 hm with rfl | hm2
      · rw [hd] at hc; cases hc
      · exact ih hm2 hd
    · rw [if_neg hc]
      exact hm

theorem mem_dropTrailing_of_not {p : Char → Bool} {d : Char} :
    ∀ {l : List Char}, d ∈ l → p d = false → d ∈ dropTrailing p l := by
  intro l
  induction l with
  | nil => intro h _; cases h
  | cons c t ih =>
    intro hm hd
    rw [dropTrailing_cons]
    rcases List.mem_cons.1 hm with rfl | hm2
    · rw [if_neg (by simp [hd])]
      exact List.mem_cons_self _ _
    · have hdt : d ∈ dropTrailing p t := ih hm2 hd
      have hne : (dropTrailing p t).isEmpty = false := by
        cases he : dropTrailing p t with
        | nil => rw [he] at hdt; cases hdt
        | cons a b => rfl
      rw [if_neg (by simp [hne])]
      exact List.mem_cons_of_mem _ hdt

theorem mem_pyStripL_of_not {d : Char} {l : List Char} (hm : d ∈ l)
    (hd : pyIsSpace d = false) : d ∈ pyStripL l :=
  mem_dropTrailing_of_not (mem_dropWhile_of_not hm hd) hd

theorem pyStripL_head_not_space {l : List Char} {c : Char} {t : List Char}
    (h : pyStripL l = c :: t) : pyIsSpace c = false := by
  unfold pyStripL at h
  cases hA : l.dropWhile pyIsSpace with
  | nil => rw [hA] at h; simp [dropTrailing_nil] at h
  | cons c0 t0 =>
    rw [hA] at h
    have hs := dropTrailing_cons_structure pyIsSpace c0 t0 (by rw [h]; simp)
    rw [hs] at h
    have hc0 := dropWhile_head_false pyIsSpace l c0 t0 hA
    injection h with h1 _
    rw [← h1]
    exact hc0

/-! ### Rounding bounds -/

theorem roundHalfEven_le {q : ℚ} {n : ℤ} (h : q ≤ (n : ℚ)) : roundHalfEven q ≤ n := by
  simp only [roundHalfEven]
  have hf : ⌊q⌋ ≤ n := by
    have := Int.floor_le_floor h
    simpa using this
  have hsucc : ¬ q - (⌊q⌋ : ℚ) < 1/2 → ⌊q⌋ + 1 ≤ n := by
    intro hr
    have h0 : (0 : ℚ) < q - (⌊q⌋ : ℚ) := by linarith [not_lt.1 hr]
    have : (⌊q⌋ : ℚ) < (n : ℚ) := by linarith
    exact_mod_cast Int.add_one_le_iff.2 (by exact_mod_cast this)
  split
  · exact hf
  · next hr =>
    split
    · exact hsucc hr
    · split
      · exact hf
      · exact hsucc hr

theorem le_roundHalfEven {q : ℚ} {n : ℤ} (h : (n : ℚ) ≤ q) : n ≤ roundHalfEven q := by
  simp only [roundHalfEven]
  have hf : n ≤ ⌊q⌋ := Int.le_floor.2 h
  split
  · exact hf
  · split
    · exact hf.trans (by omega)
    · split
      · exact hf
      · exact hf.trans (by omega)

/-! ### `lowerChar` lemmas -/

theorem lowerChar_toNat (c : Char) :
    (lowerChar c).toNat =
      if 65 ≤ c.toNat ∧ c.toNat ≤ 90 then c.toNat + 32 else c.toNat := by
  unfold lowerChar
  split
  · rfl
  · rfl

theorem lowerChar_eq_self (c : Char) (h : ¬(65 ≤ c.toNat ∧ c.toNat ≤ 90)) :
    lowerChar c = c := dif_neg h

theorem lowerChar_idem (c : Char) : lowerChar (lowerChar c) = lowerChar c := by
  by_cases h : 65 ≤ c.toNat ∧ c.toNat ≤ 90
  · have ht : (lowerChar c).toNat = c.toNat + 32 := by rw [lowerChar_toNat, if_pos h]
    exact lowerChar_eq_self _ (by omega)
  · rw [lowerChar_eq_self c h]
    exact lowerChar_eq_self c h

theorem eq_of_lowerChar_eq_of_not_lower {c d : Char} (hd : d.toNat < 97 ∨ 122 < d.toNat)
    (h : lowerChar c = d) : c = d := by
  by_cases hc : 65 ≤ c.toNat ∧ c.toNat ≤ 90
  · have ht := lowerChar_toNat c
    rw [if_pos hc, h] at ht
    omega
  · rwa [lowerChar_eq_self c hc] at h

/-! ### `normalize_skill` stage no-op lemmas -/

theorem afterSepDrop_eq_none {l : List Char} (h : ∀ c ∈ l, sepChar c = false) :
    afterSepDrop l = none := by
  induction l with
  | nil => rfl
  | cons c t ih =>
    simp only [afterSepDrop]
    rw [if_neg (by simp [h c (List.mem_cons_self c t)])]
    exact ih fun x hx => h x (List.mem_cons_of_mem _ hx)

theorem stripCategory_eq_self {l : List Char} (h : ∀ c ∈ l, sepChar c = false) :
    stripCategory l = l := by
  cases l with
  | nil => rfl
  | cons c t =>
    simp only [stripCategory]
    rw [if_neg (by simp [h c (List.mem_cons_self c t)]),
      afterSepDrop_eq_none fun x hx => h x (List.mem_cons_of_mem _ hx)]

theorem stripCI_suffix : ∀ (pat l r : List Char), stripCI pat l = some r → r <:+ l := by
  intro pat
  induction pat with
  | nil =>
    intro l r h
    cases h
    exact List.suffix_refl _
  | cons p ps ih =>
    intro l r h
    cases l with
    | nil => cases h
    | cons c cs =>
      simp only [stripCI] at h
      by_cases hc : (lowerChar c == p) = true
      · rw [if_pos hc] at h
        exact (ih cs r h).trans (List.suffix_cons c cs)
      · rw [if_neg hc] at h; cases h

theorem stripCI_colon_mem : ∀ (pat l r : List Char),
    stripCI pat l = some r → ':' ∈ pat → ':' ∈ l := by
  intro pat
  induction pat with
  | nil =>
    intro l r h hm
    simp at hm
  | cons p ps ih =>
    intro l r h hm
    cases l with
    | nil => cases h
    | cons c cs =>
      simp only [stripCI] at h
      by_cases hc : (lowerChar c == p) = true
      · rw [if_pos hc] at h
        rcases List.mem_cons.1 hm with hm1 | hm2
        · have hcc : lowerChar c = ':' := by
            have := eq_of_beq hc
            rw [this, ← hm1]
          have : c = ':' := eq_of_lowerChar_eq_of_not_lower (by decide) hcc
          exact this ▸ List.mem_cons_self c cs
        · exact List.mem_cons_of_mem _ (ih cs r h hm2)
      · rw [if_neg hc] at h; cases h

theorem wsPlus_suffix {l r : List Char} (h : wsPlus l = some r) : r <:+ l := by
  cases l with
  | nil => cases h
  | cons c cs =>
    simp only [wsPlus] at h
    by_cases hc : pyIsSpace c = true
    · rw [if_pos hc] at h
      cases h
      exact (List.dropWhile_suffix _).trans (List.suffix_cons c cs)
    · rw [if_neg hc] at h; cases h

theorem altS_colon {base : String} {l r : List Char} (h : altS base l = some r) :
    ':' ∈ l := by
  simp only [altS] at h
  split at h
  · next r1 h1 => exact stripCI_colon_mem _ _ _ h1 (by simp)
  · next h1 => exact stripCI_colon_mem _ _ _ h (by simp)

theorem altAgentic_colon {l r : List Char} (h : altAgentic l = some r) : ':' ∈ l := by
  simp only [altAgentic] at h
  split at h
  · next r1 h1 =>
    split at h
    · next r2 h2 =>
      have hm : ':' ∈ r2 := stripCI_colon_mem _ _ _ h (by decide)
      exact (stripCI_suffix _ _ _ h1).subset ((wsPlus_suffix h2).subset hm)
    · cases h
  · cases h

theorem altAiml_colon {l r : List Char} (h : altAiml l = some r) : ':' ∈ l := by
  simp only [altAiml] at h
  split at h
  · next r1 h1 =>
    split at h
    · next r2 h2 =>
      have hm : ':' ∈ r2 := altS_colon h
      exact (stripCI_suffix _ _ _ h1).subset ((wsPlus_suffix h2).subset hm)
    · cases h
  · cases h

theorem tryAlts_colon : ∀ (fs : List (List Char → Option (List Char))),
    (∀ f ∈ fs, ∀ l r, f l = some r → ':' ∈ l) →
    ∀ {l r}, tryAlts fs l = some r → ':' ∈ l := by
  intro fs
  induction fs with
  | nil =>
    intro _ l r h
    cases h
  | cons f fs ih =>
    intro hall l r h
    simp only [tryAlts] at h
    split at h
    · next r1 hf => exact hall f (List.mem_cons_self _ _) l r1 hf
    · exact ih (fun g hg => hall g (List.mem_cons_of_mem _ hg)) h

theorem labelAlts_colon : ∀ f ∈ labelAlts, ∀ l r, f l = some r → ':' ∈ l := by
  intro f hf l r h
  fin_cases hf
  all_goals
    first
    | exact altS_colon h
    | exact altAgentic_colon h
    | exact altAiml_colon h

theorem stripLabelsOnce_eq_self {l : List Char} (h : ':' ∉ l) :
    stripLabelsOnce l = l := by
  simp only [stripLabelsOnce]
  split
  · next r ht => exact absurd (tryAlts_colon labelAlts labelAlts_colon ht) h
  · rfl

theorem map_lowerChar_eq_self {l : List Char} (h : ∀ c ∈ l, lowerChar c = c) :
    l.map lowerChar = l := by
  induction l with
  | nil => rfl
  | cons c t ih =>
    simp only [List.map_cons, h c (List.mem_cons_self c t),
      ih fun x hx => h x (List.mem_cons_of_mem _ hx)]

/-! ### suffix, subset and length facts about the regex stages -/

theorem altS_suffix {base : String} {l r : List Char} (h : altS base l = some r) :
    r <:+ l := by
  simp only [altS] at h
  split at h
  · next r1 h1 =>
    cases h
    exact stripCI_suffix _ _ _ h1
  · exact stripCI_suffix _ _ _ h

theorem altAgentic_suffix {l r : List Char} (h : altAgentic l = some r) : r <:+ l := by
  simp only [altAgentic] at h
  split at h
  · next r1 h1 =>
    split at h
    · next r2 h2 =>
      exact ((stripCI_suffix _ _ _ h).trans (wsPlus_suffix h2)).trans
        (stripCI_suffix _ _ _ h1)
    · cases h
  · cases h

theorem altAiml_suffix {l r : List Char} (h : altAiml l = some r) : r <:+ l := by
  simp only [altAiml] at h
  split at h
  · next r1 h1 =>
    split at h
    · next r2 h2 =>
      exact ((altS_suffix h).trans (wsPlus_suffix h2)).trans (stripCI_suffix _ _ _ h1)
    · cases h
  · cases h

theorem tryAlts_suffix : ∀ (fs : List (List Char → Option (List Char))),
    (∀ f ∈ fs, ∀ l r, f l = some r → r <:+ l) →
    ∀ {l r}, tryAlts fs l = some r → r <:+ l := by
  intro fs
  induction fs with
  | nil =>
    intro _ l r h
    cases h
  | cons f fs ih =>
    intro hall l r h
    simp only [tryAlts] at h
    split at h
    · next r1 hf =>
      cases h
      exact hall f (List.mem_cons_self _ _) l r hf
    · exact ih (fun g hg => hall g (List.mem_cons_of_mem _ hg)) h

theorem labelAlts_suffix : ∀ f ∈ labelAlts, ∀ l r, f l = some r → r <:+ l := by
  intro f hf l r h
  fin_cases hf
  all_goals
    first
    | exact altS_suffix h
    | exact altAgentic_suffix h
    | exact altAiml_suffix h

theorem stripLabelsOnce_subset (l : List Char) : stripLabelsOnce l ⊆ l := by
  simp only [stripLabelsOnce]
  split
  · next r ht =>
    exact ((List.dropWhile_sublist _).subset).trans
      (tryAlts_suffix labelAlts labelAlts_suffix ht).subset
  · exact fun _ h => h

theorem afterSepDrop_subset : ∀ {l r : List Char}, afterSepDrop l = some r → r ⊆ l := by
  intro l
  induction l with
  | nil => intro r h; cases h
  | cons c t ih =>
    intro r h
    simp only [afterSepDrop] at h
    by_cases hc : sepChar c = true
    · rw [if_pos hc] at h
      cases h
      exact ((List.dropWhile_sublist _).subset).trans
        (List.subset_cons_of_subset _ (fun _ h => h))
    · rw [if_neg hc] at h
      exact (ih h).trans (List.subset_cons_self _ _)

theorem stripCategory_subset (l : List Char) : stripCategory l ⊆ l := by
  cases l with
  | nil => exact fun _ h => h
  | cons c t =>
    simp only [stripCategory]
    by_cases hc : sepChar c = true
    · rw [if_pos hc]
      exact fun _ h => h
    · rw [if_neg hc]
      split
      · next r hr => exact (afterSepDrop_subset hr).trans (List.subset_cons_self _ _)
      · exact fun _ h => h

theorem length_dropTrailing_le (p : Char → Bool) :
    ∀ l : List Char, (dropTrailing p l).length ≤ l.length := by
  intro l
  induction l with
  | nil => exact le_refl 0
  | cons c t ih =>
    rw [dropTrailing_cons]
    split
    · simp
    · simpa using Nat.succ_le_succ ih

theorem length_pyStripL_le (l : List Char) : (pyStripL l).length ≤ l.length :=
  le_trans (length_dropTrailing_le pyIsSpace _) (List.dropWhile_sublist _).length_le

theorem stripLabelsOnce_length_le (l : List Char) :
    (stripLabelsOnce l).length ≤ l.length := by
  simp only [stripLabelsOnce]
  split
  · next r ht =>
    exact le_trans (List.dropWhile_sublist _).length_le
      (tryAlts_suffix labelAlts labelAlts_suffix ht).sublist.length_le
  · exact le_refl _

theorem afterSepDrop_length_lt : ∀ {l r : List Char},
    afterSepDrop l = some r → r.length < l.length := by
  intro l
  induction l with
  | nil => intro r h; cases h
  | cons c t ih =>
    intro r h
    simp only [afterSepDrop] at h
    by_cases hc : sepChar c = true
    · rw [if_pos hc] at h
      cases h
      exact Nat.lt_succ_of_le (List.dropWhile_sublist _).length_le
    · rw [if_neg hc] at h
      exact Nat.lt_succ_of_lt (ih h)

theorem stripCategory_length_lt {l : List Char} (h : stripCategory l ≠ l) :
    (stripCategory l).length < l.length := by
  cases l with
  | nil => exact absurd rfl h
  | cons c t =>
    simp only [stripCategory] at h ⊢
    by_cases hc : sepChar c = true
    · rw [if_pos hc] at h
      exact absurd rfl h
    · rw [if_neg hc] at h ⊢
      cases hr : afterSepDrop t with
      | none => rw [hr] at h; exact absurd rfl h
      | some r => exact Nat.lt_succ_of_lt (afterSepDrop_length_lt hr)

/-! ### `lowerChar` fixed points on non-letter classes -/

theorem lowerChar_eq_self_of_space {d : Char} (h : pyIsSpace d = true) :
    lowerChar d = d := by
  simp only [pyIsSpace, Bool.or_eq_true, beq_iff_eq] at h
  rcases h with ((((rfl | rfl) | rfl) | rfl) | rfl) | rfl <;> decide

theorem lowerChar_eq_self_of_dispPunct {d : Char} (h : dispPunct d = true) :
    lowerChar d = d := by
  simp only [dispPunct, Bool.or_eq_true, beq_iff_eq] at h
  rcases h with ((((rfl | rfl) | rfl) | rfl) | rfl) | rfl <;> decide

theorem punctCls_of_dispPunct {d : Char} (h : dispPunct d = true) :
    punctCls d = true := by
  simp only [dispPunct, Bool.or_eq_true, beq_iff_eq] at h
  rcases h with ((((rfl | rfl) | rfl) | rfl) | rfl) | rfl <;> decide

theorem normalize_skill_def (s : String) :
    normalize_skill s = String.mk (normalize_skill_list s.data) := rfl

theorem normalize_skill_data (s : String) :
    (normalize_skill s).data = normalize_skill_list s.data := by
  rw [normalize_skill_def]

/-! ### character-level properties of `normalize_skill` output -/

theorem normalize_skill_list_no_punct {l : List Char} {c : Char}
    (hc : c ∈ normalize_skill_list l) : punctCls c = false := by
  simp only [normalize_skill_list] at hc
  have hc6 := mem_of_mem_pyStripL hc
  have := List.of_mem_filter hc6
  simpa using this

theorem normalize_skill_list_lower {l : List Char} {c : Char}
    (hc : c ∈ normalize_skill_list l) : lowerChar c = c := by
  simp only [normalize_skill_list] at hc
  have hc6 := mem_of_mem_pyStripL hc
  have hc5 := List.mem_of_mem_filter hc6
  have hcm := mem_of_mem_pyStripL hc5
  obtain ⟨d, -, rfl⟩ := List.mem_map.1 hcm
  exact lowerChar_idem d

theorem normalize_skill_list_stripped (l : List Char) :
    pyStripL (normalize_skill_list l) = normalize_skill_list l := by
  simp only [normalize_skill_list]
  exact pyStripL_idem _

theorem normalize_skill_list_idem {l : List Char}
    (hd : '-' ∉ normalize_skill_list l) (hp : '|' ∉ normalize_skill_list l) :
    normalize_skill_list (normalize_skill_list l) = normalize_skill_list l := by
  have hcolon : ':' ∉ normalize_skill_list l := by
    intro hc
    have h1 := normalize_skill_list_no_punct hc
    have h2 : punctCls ':' = true := by decide
    rw [h2] at h1
    cases h1
  have hsep : ∀ c ∈ normalize_skill_list l, sepChar c = false := by
    intro c hc
    have h1 : c ≠ ':' := fun e => hcolon (e ▸ hc)
    have h2 : c ≠ '|' := fun e => hp (e ▸ hc)
    have h3 : c ≠ '-' := fun e => hd (e ▸ hc)
    simp [sepChar, h1, h2, h3]
  have hstrip := normalize_skill_list_stripped l
  have hfilter : (normalize_skill_list l).filter (fun c => !(punctCls c)) =
      normalize_skill_list l :=
    List.filter_eq_self.2 fun c hc => by simp [normalize_skill_list_no_punct hc]
  conv_lhs => rw [normalize_skill_list]
  rw [stripCategory_eq_self hsep, hstrip, stripLabelsOnce_eq_self hcolon, hstrip,
    map_lowerChar_eq_self (fun c hc => normalize_skill_list_lower hc), hstrip,
    hfilter, hstrip]

theorem normalize_skill_list_no_colon (l : List Char) :
    ':' ∉ normalize_skill_list l := by
  intro hc
  have h1 := normalize_skill_list_no_punct hc
  have h2 : punctCls ':' = true := by decide
  rw [h2] at h1
  cases h1

theorem normalize_skill_list_idem_of_fix {l : List Char}
    (hfix : stripCategory (normalize_skill_list l) = normalize_skill_list l) :
    normalize_skill_list (normalize_skill_list l) = normalize_skill_list l := by
  have hcolon := normalize_skill_list_no_colon l
  have hstrip := normalize_skill_list_stripped l
  have hfilter : (normalize_skill_list l).filter (fun c => !(punctCls c)) =
      normalize_skill_list l :=
    List.filter_eq_self.2 fun c hc => by simp [normalize_skill_list_no_punct hc]
  conv_lhs => rw [normalize_skill_list]
  rw [hfix, hstrip, stripLabelsOnce_eq_self hcolon, hstrip,
    map_lowerChar_eq_self (fun c hc => normalize_skill_list_lower hc), hstrip,
    hfilter, hstrip]

theorem normalize_skill_list_length_le_strip (l : List Char) :
    (normalize_skill_list l).length ≤ (stripCategory l).length := by
  simp only [normalize_skill_list]
  refine le_trans (length_pyStripL_le _) ?_
  refine le_trans (List.length_filter_le _ _) ?_
  refine le_trans (length_pyStripL_le _) ?_
  rw [List.length_map]
  refine le_trans (length_pyStripL_le _) ?_
  refine le_trans (stripLabelsOnce_length_le _) ?_
  exact length_pyStripL_le _

/-! ## Claim C4: idempotence of `normalize_skill` -/

/-- C4 (counterexample): `normalize_skill` is NOT idempotent.  On
`"a-b-c"` the first application strips only through the first `-`
(yielding `"b-c"`), and a second application strips again (`"c"`). -/
theorem normalize_skill_not_idempotent :
    normalize_skill (normalize_skill "a-b-c") ≠ normalize_skill "a-b-c" := by decide

/-- Evidence for the exact characterization below: a normalized form may
still contain a separator and be a fixed point, because the anchored
category regex also needs a non-separator character before the separator.
`normalize_skill "-abc" = "-abc"` even though it contains a dash. -/
theorem normalize_skill_dash_abc_fixed :
    normalize_skill (normalize_skill "-abc") = normalize_skill "-abc" ∧
    '-' ∈ (normalize_skill "-abc").data := by decide

/-- C4 (amended): a second application of `normalize_skill` is the identity
exactly when the category-prefix regex `^[^:|\x2d]+[:|\x2d|]\s*` fails to
match the normalized form again, i.e. when `stripCategory` fixes it.  All
later stages (strip, label regex, lowercasing, punctuation filter) are
unconditional no-ops on `normalize_skill` output, so a re-match of the
category regex is the only source of non-idempotence; conversely a re-match
strictly shortens the string.  Containing no leftover `-` or `|` is
sufficient but not necessary for this (e.g. `"-abc"` is a fixed point). -/
theorem normalize_skill_idem_iff (s : String) :
    normalize_skill (normalize_skill s) = normalize_skill s ↔
    stripCategory (normalize_skill s).data = (normalize_skill s).data := by
  constructor
  · intro h
    by_contra hne
    have hlt := stripCategory_length_lt hne
    have hle := normalize_skill_list_length_le_strip (normalize_skill s).data
    have hlen := lt_of_le_of_lt hle hlt
    have hdata := congrArg String.data h
    rw [normalize_skill_data, normalize_skill_data] at hdata
    rw [normalize_skill_data] at hlen
    rw [hdata] at hlen
    exact lt_irrefl _ hlen
  · intro hfix
    rw [normalize_skill_data] at hfix
    have hl := normalize_skill_list_idem_of_fix hfix
    rw [normalize_skill_def (normalize_skill s), normalize_skill_data, hl,
      ← normalize_skill_def]

/-! ### `pyRound2` bounds -/

theorem pyRound2_le_intCast {q : ℚ} {n : ℤ} (h : q ≤ (n : ℚ)) : pyRound2 q ≤ (n : ℚ) := by
  unfold pyRound2
  have h1 : q * 100 ≤ ((n * 100 : ℤ) : ℚ) := by push_cast; linarith
  have h2 := roundHalfEven_le h1
  rw [div_le_iff₀ (by norm_num : (0:ℚ) < 100)]
  calc ((roundHalfEven (q * 100) : ℤ) : ℚ) ≤ ((n * 100 : ℤ) : ℚ) := by exact_mod_cast h2
    _ = (n : ℚ) * 100 := by push_cast; ring

theorem le_pyRound2_intCast {q : ℚ} {n : ℤ} (h : (n : ℚ) ≤ q) : (n : ℚ) ≤ pyRound2 q := by
  unfold pyRound2
  have h1 : ((n * 100 : ℤ) : ℚ) ≤ q * 100 := by push_cast; linarith
  have h2 := le_roundHalfEven h1
  rw [le_div_iff₀ (by norm_num : (0:ℚ) < 100)]
  calc (n : ℚ) * 100 = ((n * 100 : ℤ) : ℚ) := by push_cast; ring
    _ ≤ ((roundHalfEven (q * 100) : ℤ) : ℚ) := by exact_mod_cast h2

/-! ### Bounds for the distribution-normalization curve -/

theorem normDist_le_095 (s : ℚ) : normalize_score_for_human_distribution s ≤ 0.95 := by
  simp only [normalize_score_for_human_distribution]
  exact max_le (by norm_num) ((min_le_left _ _))

theorem normDist_nonneg (s : ℚ) : 0 ≤ normalize_score_for_human_distribution s := by
  simp only [normalize_score_for_human_distribution]
  exact le_max_left _ _

/-- A raw score capped at `0.40` normalizes to at most `0.51`:
`np.interp(40, [30, 80], [40, 95]) = 51`. -/
theorem normDist_le_051 {s : ℚ} (h : s ≤ 0.40) :
    normalize_score_for_human_distribution s ≤ 0.51 := by
  simp only [normalize_score_for_human_distribution]
  have hp : s * 100 ≤ 40 := by linarith
  have hnp : (if 30 ≤ s * 100 then
      if s * 100 ≤ 80 then 40 + (s * 100 - 30) * (55 / 50)
      else min 95 (40 + (s * 100 - 30) * (55 / 50))
    else if 0 < s * 100 then s * 100 * (40 / 30) else 0) ≤ 51 := by
    split_ifs with h1 h2 h3
    · linarith
    · linarith
    · linarith
    · norm_num
  exact max_le (by norm_num) ((min_le_right _ _).trans (by linarith))

/-! ## Claim C1: the domain-mismatch cap -/

/-- Packaging: the tail of the pipeline (normalize, round, clamp) maps a
capped raw score `x ≤ 0.40` to a final value `≤ 51`. -/
theorem final_package_le_51 (x : ℚ) (hx : x ≤ 0.40) :
    max 0 (min 100 (pyRound2 (normalize_score_for_human_distribution x * 100))) ≤ 51 := by
  have hn := normDist_le_051 hx
  have hr : pyRound2 (normalize_score_for_human_distribution x * 100) ≤ ((51 : ℤ) : ℚ) :=
    pyRound2_le_intCast (by push_cast; linarith)
  refine max_le (by norm_num) ((min_le_right _ _).trans ?_)
  exact_mod_cast hr

section RatEval

attribute [local semireducible] Rat.mul Rat.inv Rat.add Rat.sub Rat.ofScientific

/-- C1 (counterexample): the spec claims that `semantic < 0.40` forces
`compute_suitability_score ≤ 40.0`, but the cap is applied to the RAW
score *before* distribution normalization, which remaps `0.40` to `0.51`:
at `semantic = 0.39`, `skill = experience = 1`, the default pipeline
returns `51.0 > 40.0`. -/
theorem suitability_domain_cap_counterexample :
    (39 / 100 : ℚ) < 40 / 100 ∧
    compute_suitability_score (39 / 100) 1 1 none "" true = 51 ∧
    ¬ compute_suitability_score (39 / 100) 1 1 none "" true ≤ 40 := by
  refine ⟨by norm_num, by decide, by decide⟩

end RatEval

/-- C1 (amended): with `semantic < 0.40` (and the other sub-scores in
`[0, 1]`), the default pipeline (`weights = None`, `normalize = True`)
returns at most `51.0`: the raw score is capped at `0.40` before
normalization, the normalization curve maps `[0, 0.40]` into `[0, 0.51]`,
and no later bonus can fire because each needs `semantic > 0.85`. -/
theorem suitability_domain_cap_le_51 (sem skill expv : ℚ) (jdt : String)
    (hs : sem < 40 / 100) (_hk0 : 0 ≤ skill) (_hk1 : skill ≤ 1)
    (_he0 : 0 ≤ expv) (_he1 : expv ≤ 1) :
    compute_suitability_score sem skill expv none jdt true ≤ 51 := by
  simp only [compute_suitability_score]
  have hsem : max 0 (min 1 sem) < 40 / 100 :=
    max_lt (by norm_num) (lt_of_le_of_lt (min_le_right 1 sem) hs)
  have hcap : max 0 (min 1 sem) * 100 < 40 := by linarith
  have h85 : ¬ (85 : ℚ) < max 0 (min 1 sem) * 100 := by linarith
  have h90 : ¬ (90 : ℚ) < max 0 (min 1 sem) * 100 := by linarith
  have h95 : ¬ (95 : ℚ) < max 0 (min 1 sem) * 100 := by linarith
  rw [if_pos hcap]
  simp only [h85, h90, h95, false_and, if_false, if_true]
  exact final_package_le_51 _ (min_le_right _ _)

/-- C1 witness for the amended bound. -/
theorem suitability_domain_cap_le_51_witness :
    ((1 / 5 : ℚ) < 40 / 100 ∧ (0 : ℚ) ≤ 1 / 2 ∧ (1 / 2 : ℚ) ≤ 1) ∧
    compute_suitability_score (1 / 5) (1 / 2) (1 / 2) none "" true ≤ 51 :=
  ⟨⟨by norm_num, by norm_num, by norm_num⟩,
    suitability_domain_cap_le_51 (1 / 5) (1 / 2) (1 / 2) ""
      (by norm_num) (by norm_num) (by norm_num) (by norm_num) (by norm_num)⟩

/-! ## Claim C2: the perfect-match floor -/

/-- Packaging: after the perfect-match floor `max s3 0.95`, the remaining
boosts and the final round/clamp keep the result at least `95`. -/
theorem floor_package_ge_95 (s3 semP : ℚ) :
    95 ≤ max 0 (min 100 (pyRound2
      ((if 95 < semP ∧ (if 0.95 ≤ max s3 0.95 ∧ 95 < semP then
          min 1 (max s3 0.95 * 1.02) else max s3 0.95) < 1 then
        min 1 ((if 0.95 ≤ max s3 0.95 ∧ 95 < semP then
          min 1 (max s3 0.95 * 1.02) else max s3 0.95) * 1.01)
      else (if 0.95 ≤ max s3 0.95 ∧ 95 < semP then
          min 1 (max s3 0.95 * 1.02) else max s3 0.95)) * 100))) := by
  have hbase : (0.95 : ℚ) ≤ max s3 0.95 := le_max_right _ _
  set s4 := if 0.95 ≤ max s3 0.95 ∧ 95 < semP then
      min 1 (max s3 0.95 * 1.02) else max s3 0.95 with hs4
  have h4 : (0.95 : ℚ) ≤ s4 := by
    rw [hs4]
    split_ifs with h
    · refine le_min (by norm_num) ?_
      nlinarith
    · exact hbase
  have h5 : (0.95 : ℚ) ≤ (if 95 < semP ∧ s4 < 1 then min 1 (s4 * 1.01) else s4) := by
    split_ifs with h
    · refine le_min (by norm_num) ?_
      nlinarith
    · exact h4
  have h95 : ((95 : ℤ) : ℚ) ≤ pyRound2 ((if 95 < semP ∧ s4 < 1 then
      min 1 (s4 * 1.01) else s4) * 100) :=
    le_pyRound2_intCast (by push_cast; nlinarith)
  have hmin : (95 : ℚ) ≤ min 100 (pyRound2 ((if 95 < semP ∧ s4 < 1 then
      min 1 (s4 * 1.01) else s4) * 100)) :=
    le_min (by norm_num) (by exact_mod_cast h95)
  exact hmin.trans (le_max_right _ _)

/-- C2: whenever `semantic > 0.90` and `skillOverlap > 0.80` (inputs that
clamp to the same values), the perfect-match floor forces the final score
to at least `95.0`; this holds for every weight dictionary, any
`jd_text`, and with or without normalization, since the floor
`max(score, 0.95)` is applied after both. -/
theorem suitability_perfect_floor (sem skill expv : ℚ) (w : Option W3)
    (jdt : String) (nm : Bool) (hs : 90 / 100 < sem) (hk : 80 / 100 < skill) :
    95 ≤ compute_suitability_score sem skill expv w jdt nm := by
  simp only [compute_suitability_score]
  have hsem : (90 / 100 : ℚ) < max 0 (min 1 sem) :=
    lt_of_lt_of_le (lt_min (by norm_num) hs) (le_max_right 0 (min 1 sem))
  have hskill : (80 / 100 : ℚ) < max 0 (min 1 skill) :=
    lt_of_lt_of_le (lt_min (by norm_num) hk) (le_max_right 0 (min 1 skill))
  have hncap : ¬ max 0 (min 1 sem) * 100 < 40 := by linarith
  have h8570 : (85 : ℚ) < max 0 (min 1 sem) * 100 ∧
      (70 : ℚ) < max 0 (min 1 skill) * 100 := ⟨by linarith, by linarith⟩
  have h9080 : (90 : ℚ) < max 0 (min 1 sem) * 100 ∧
      (80 : ℚ) < max 0 (min 1 skill) * 100 := ⟨by linarith, by linarith⟩
  rw [if_neg hncap, if_pos h8570, if_pos h9080]
  exact floor_package_ge_95 _ _

/-- C2 witness. -/
theorem suitability_perfect_floor_witness :
    ((90 / 100 : ℚ) < 95 / 100 ∧ (80 / 100 : ℚ) < 9 / 10) ∧
    95 ≤ compute_suitability_score (95 / 100) (9 / 10) 0 none "" true :=
  ⟨⟨by norm_num, by norm_num⟩,
    suitability_perfect_floor (95 / 100) (9 / 10) 0 none "" true
      (by norm_num) (by norm_num)⟩

/-! ## Claim C8: bounds of the public scorers -/

theorem lexicalOverlapScore_bounds (r j : List String) :
    0 ≤ lexicalOverlapScore r j ∧ lexicalOverlapScore r j ≤ 1 := by
  simp only [lexicalOverlapScore]
  by_cases h1 : j = []
  · rw [if_pos h1]
    exact ⟨le_refl 0, by norm_num⟩
  · rw [if_neg h1]
    by_cases h2 : dedupFirst (j.flatMap (fun s => s :: expand_skill_synonyms s)) = []
    · rw [if_pos h2]
      exact ⟨le_refl 0, by norm_num⟩
    · rw [if_neg h2]
      exact ⟨le_min (by norm_num) (le_max_left _ _), min_le_left _ _⟩

theorem compute_experience_relevance_bounds (p07 : ℚ → ℚ) (y r : ℚ)
    (rt jt : String) :
    0 ≤ compute_experience_relevance p07 y r rt jt ∧
      compute_experience_relevance p07 y r rt jt ≤ 1 := by
  simp only [compute_experience_relevance]
  split_ifs with h1 h2 h3 h4 h5
  · exact ⟨by norm_num, by norm_num⟩
  · exact ⟨by norm_num, by norm_num⟩
  · exact ⟨by norm_num, by norm_num⟩
  · have hyr : y < r := not_le.1 h3
    have hr : 0 < r := h5.trans hyr
    have hd : 0 < y / r := div_pos h5 hr
    constructor
    · exact le_min (by norm_num) (by nlinarith)
    · exact min_le_left _ _
  · exact ⟨by norm_num, by norm_num⟩
  all_goals exact ⟨le_max_left _ _, max_le (by norm_num) (min_le_left _ _)⟩

theorem compute_suitability_score_bounds (sem sk ex : ℚ) (w : Option W3)
    (jdt : String) (nm : Bool) :
    0 ≤ compute_suitability_score sem sk ex w jdt nm ∧
      compute_suitability_score sem sk ex w jdt nm ≤ 100 := by
  simp only [compute_suitability_score]
  constructor
  · exact le_max_left _ _
  · exact max_le (by norm_num) (min_le_left _ _)

theorem compute_skill_overlap_score_bounds (rs js : List String)
    (m : Option SimModel) (jt rt : String) :
    0 ≤ compute_skill_overlap_score rs js m jt rt ∧
      compute_skill_overlap_score rs js m jt rt ≤ 1 := by
  cases m with
  | none => exact lexicalOverlapScore_bounds _ _
  | some mm =>
    simp only [compute_skill_overlap_score]
    by_cases h1 : jt ≠ "" ∧ rt ≠ ""
    · rw [if_pos h1]
      by_cases h2 : 0 < (compute_semantic_skill_overlap mm jt rt 0.75).2.2
      · rw [if_pos h2]
        exact ⟨le_min (by norm_num) (le_max_left _ _), min_le_left _ _⟩
      · rw [if_neg h2]
        exact lexicalOverlapScore_bounds _ _
    · rw [if_neg h1]
      exact lexicalOverlapScore_bounds _ _

/-- C8: every public scorer stays within its documented closed interval
for all inputs (including empty skill lists and an arbitrary model of the
floating-point power): `compute_skill_overlap_score` and
`compute_experience_relevance` return values in `[0, 1]`, and
`compute_suitability_score` returns a value in `[0, 100]`. -/
theorem public_scorer_bounds :
    (∀ (rs js : List String) (m : Option SimModel) (jt rt : String),
      0 ≤ compute_skill_overlap_score rs js m jt rt ∧
        compute_skill_overlap_score rs js m jt rt ≤ 1) ∧
    (∀ (p07 : ℚ → ℚ) (y r : ℚ) (rt jt : String),
      0 ≤ compute_experience_relevance p07 y r rt jt ∧
        compute_experience_relevance p07 y r rt jt ≤ 1) ∧
    (∀ (sem sk ex : ℚ) (w : Option W3) (jdt : String) (nm : Bool),
      0 ≤ compute_suitability_score sem sk ex w jdt nm ∧
        compute_suitability_score sem sk ex w jdt nm ≤ 100) :=
  ⟨compute_skill_overlap_score_bounds, compute_experience_relevance_bounds,
    compute_suitability_score_bounds⟩

/-! ## Claim C6: the entry-level experience shortcut -/

/-- C6: when both texts are classified entry-level by the detector,
`compute_experience_relevance` returns exactly `1.0`, for all numeric
years and for every model of the floating-point power. -/
theorem experience_entry_level_shortcut (p07 : ℚ → ℚ) (years req : ℚ)
    (rt jt : String) (hr : is_entry_level_role rt = true)
    (hj : is_entry_level_role jt = true) :
    compute_experience_relevance p07 years req rt jt = 1 := by
  have hrne : rt ≠ "" := by
    intro e
    rw [e] at hr
    exact absurd hr (by decide)
  have hjne : jt ≠ "" := by
    intro e
    rw [e] at hj
    exact absurd hj (by decide)
  simp only [compute_experience_relevance]
  rw [if_pos ⟨hrne, hjne, hr, hj⟩]

/-- C6 witness. -/
theorem experience_entry_level_shortcut_witness :
    (is_entry_level_role "intern at corp" = true ∧
      is_entry_level_role "junior developer" = true) ∧
    compute_experience_relevance id 7 3 "intern at corp" "junior developer" = 1 :=
  ⟨⟨by decide, by decide⟩,
    experience_entry_level_shortcut id 7 3 _ _ (by decide) (by decide)⟩

/-! ## Claim C5: strategy selection in the skill-overlap scorer -/

section RatEval2

attribute [local semireducible] Rat.mul Rat.inv Rat.add Rat.sub Rat.ofScientific

/-- C5 (counterexample): with a provider supplied, both texts non-empty
and no embedding failure anywhere (the provider always returns `ok`), the
semantic step succeeds with overlap `0.0` because the resume-side dynamic
token list is empty — yet the scorer does NOT return that `0.0`: it falls
through to the lexical fallback, which returns `1.0` here. -/
theorem skill_overlap_semantic_gate_counterexample :
    extract_skills_dynamic "ab" = [] ∧
    (compute_semantic_skill_overlap simOk "python, django" "ab" 0.75).2.2 = 0 ∧
    compute_skill_overlap_score ["python"] ["python"] (some simOk) "python, django" "ab" = 1 := by
  refine ⟨by decide, by decide, by decide⟩

/-- C5 (amended): with a provider and non-empty texts, the semantic
result (whose computation internally falls back to keyword matching on
dynamically extracted tokens if the embedding raises) is returned iff it
is strictly positive; on a zero (or failed-and-zero) semantic overlap the
scorer uses the lexical fallback over the provided, normalized skill
lists. -/
theorem skill_overlap_semantic_gate (m : SimModel) (rs js : List String)
    (jdt rst : String) (hj : jdt ≠ "") (hr : rst ≠ "") :
    (0 < (compute_semantic_skill_overlap m jdt rst 0.75).2.2 →
      compute_skill_overlap_score rs js (some m) jdt rst =
        min 1 (max 0 (compute_semantic_skill_overlap m jdt rst 0.75).2.2)) ∧
    ((compute_semantic_skill_overlap m jdt rst 0.75).2.2 ≤ 0 →
      compute_skill_overlap_score rs js (some m) jdt rst =
        lexicalOverlapScore
          ((rs.filter (fun s => decide (s ≠ "" ∧ normalize_skill s ≠ ""))).map normalize_skill)
          ((js.filter (fun s => decide (s ≠ "" ∧ normalize_skill s ≠ ""))).map normalize_skill)) := by
  constructor
  · intro hpos
    simp only [compute_skill_overlap_score]
    rw [if_pos ⟨hj, hr⟩, if_pos hpos]
  · intro hle
    simp only [compute_skill_overlap_score]
    rw [if_pos ⟨hj, hr⟩, if_neg (not_lt.2 hle)]

/-- C5 witness for the amended theorem (zero-overlap branch). -/
theorem skill_overlap_semantic_gate_witness :
    compute_skill_overlap_score ["python"] ["sql"] (some simOk) "python, django" "ab" =
      lexicalOverlapScore ["python"] ["sql"] := by
  have h := (skill_overlap_semantic_gate simOk ["python"] ["sql"] "python, django" "ab"
    (by decide) (by decide)).2 (by decide)
  rw [h]
  decide

end RatEval2

/-! ## Claim C3: batch ordering and stability -/

theorem mem_insertLe {le : α → α → Bool} {x z : α} :
    ∀ {l : List α}, z ∈ insertLe le x l → z = x ∨ z ∈ l := by
  intro l
  induction l with
  | nil =>
    intro h
    simp only [insertLe] at h
    rcases List.mem_singleton.1 h with rfl
    exact Or.inl rfl
  | cons y ys ih =>
    intro h
    simp only [insertLe] at h
    split_ifs at h
    · rcases List.mem_cons.1 h with rfl | h2
      · exact Or.inl rfl
      · exact Or.inr h2
    · rcases List.mem_cons.1 h with rfl | h2
      · exact Or.inr (List.mem_cons_self _ _)
      · rcases ih h2 with rfl | h3
        · exact Or.inl rfl
        · exact Or.inr (List.mem_cons_of_mem _ h3)

theorem insertLe_pairwise {α : Type _} (k : α → ℚ) (x : α) :
    ∀ {l : List α}, l.Pairwise (fun a b => k b ≤ k a) →
      (insertLe (fun a b => decide (k b ≤ k a)) x l).Pairwise
        (fun a b => k b ≤ k a) := by
  intro l
  induction l with
  | nil =>
    intro _
    exact List.pairwise_singleton _ _
  | cons y ys ih =>
    intro h
    simp only [insertLe]
    by_cases hc : (decide (k y ≤ k x)) = true
    · rw [if_pos hc]
      have hky : k y ≤ k x := of_decide_eq_true hc
      exact List.Pairwise.cons
        (fun z hz => by
          rcases List.mem_cons.1 hz with rfl | hz2
          · exact hky
          · exact le_trans (List.rel_of_pairwise_cons h hz2) hky)
        h
    · rw [if_neg hc]
      have hxy : k x < k y := not_le.1 (by simpa using hc)
      exact List.Pairwise.cons
        (fun z hz => by
          rcases mem_insertLe hz with rfl | hz2
          · exact le_of_lt hxy
          · exact List.rel_of_pairwise_cons h hz2)
        (ih h.of_cons)

theorem sortLe_pairwise {α : Type _} (k : α → ℚ) (l : List α) :
    (sortLe (fun a b => decide (k b ≤ k a)) l).Pairwise
      (fun a b => k b ≤ k a) := by
  induction l with
  | nil => exact List.Pairwise.nil
  | cons x xs ih => exact insertLe_pairwise k x ih

theorem filter_insertLe {α : Type _} (k : α → ℚ) (c : ℚ) (x : α) :
    ∀ l : List α,
      (insertLe (fun a b => decide (k b ≤ k a)) x l).filter
          (fun a => decide (k a = c)) =
        if k x = c then
          x :: l.filter (fun a => decide (k a = c))
        else l.filter (fun a => decide (k a = c)) := by
  intro l
  induction l with
  | nil =>
    by_cases h : k x = c <;> simp [insertLe, List.filter, h]
  | cons y ys ih =>
    simp only [insertLe]
    by_cases hc : (decide (k y ≤ k x)) = true
    · rw [if_pos hc]
      by_cases hx : k x = c <;> simp [List.filter_cons, hx]
    · rw [if_neg hc]
      have hxy : k x < k y := not_le.1 (by simpa using hc)
      by_cases hy : k y = c
      · have hx : k x ≠ c := by
          intro e
          rw [e, hy] at hxy
          exact lt_irrefl c hxy
        simp [List.filter_cons, hy, ih, hx]
      · by_cases hx : k x = c <;> simp [List.filter_cons, hy, ih, hx]

theorem filter_sortLe {α : Type _} (k : α → ℚ) (c : ℚ) :
    ∀ l : List α,
      (sortLe (fun a b => decide (k b ≤ k a)) l).filter
          (fun a => decide (k a = c)) =
        l.filter (fun a => decide (k a = c)) := by
  intro l
  induction l with
  | nil => rfl
  | cons x xs ih =>
    simp only [sortLe]
    rw [filter_insertLe k c x (sortLe _ xs)]
    by_cases hx : k x = c <;> simp [List.filter_cons, hx, ih]

/-- C3: `batch_match` returns the per-resume match results sorted by
`suitability_score` in non-increasing order, and results with equal
scores keep the relative order of the corresponding input resumes (the
filtered sub-sequence at each score value is unchanged by the sort). -/
theorem batch_match_sorted_stable (ext : Ext) (rds : List ResumeData)
    (jd : JDData) (w : Option W3) :
    (batch_match ext rds jd w).Pairwise
      (fun a b => b.suitability_score ≤ a.suitability_score) ∧
    ∀ c : ℚ,
      (batch_match ext rds jd w).filter
          (fun r => decide (r.suitability_score = c)) =
        (rds.map (fun rd => matchResume ext rd jd w)).filter
          (fun r => decide (r.suitability_score = c)) := by
  constructor
  · exact sortLe_pairwise (fun r : MatchResult => r.suitability_score) _
  · intro c
    exact filter_sortLe (fun r : MatchResult => r.suitability_score) c _

/-! ## Claim C7: dedup and ordering of the MatchResult skill lists -/

theorem lexLe_total : ∀ (a b : List Char), lexLe a b = true ∨ lexLe b a = true := by
  intro a
  induction a with
  | nil => intro b; exact Or.inl rfl
  | cons x xs ih =>
    intro b
    cases b with
    | nil => exact Or.inr rfl
    | cons y ys =>
      simp only [lexLe]
      split_ifs <;> first | (left; rfl) | (right; rfl) | exact ih ys

theorem lexLe_trans : ∀ (a b c : List Char), lexLe a b = true → lexLe b c = true →
    lexLe a c = true := by
  intro a
  induction a with
  | nil => intro b c _ _; rfl
  | cons x xs ih =>
    intro b c hab hbc
    cases b with
    | nil => exact Bool.noConfusion hab
    | cons y ys =>
      cases c with
      | nil => exact Bool.noConfusion hbc
      | cons z zs =>
        simp only [lexLe] at hab hbc ⊢
        split_ifs at hab hbc ⊢ <;>
          first
          | rfl
          | exact ih ys zs hab hbc
          | exact Bool.noConfusion hab
          | exact Bool.noConfusion hbc
          | omega

theorem insertLe_pairwise_of {α : Type _} {le : α → α → Bool}
    (htot : ∀ a b, le a b = true ∨ le b a = true)
    (htr : ∀ a b c, le a b = true → le b c = true → le a c = true) (x : α) :
    ∀ {l : List α}, l.Pairwise (fun a b => le a b = true) →
      (insertLe le x l).Pairwise (fun a b => le a b = true) := by
  intro l
  induction l with
  | nil =>
    intro _
    exact List.pairwise_singleton _ _
  | cons y ys ih =>
    intro h
    simp only [insertLe]
    by_cases hc : le x y = true
    · rw [if_pos hc]
      exact List.Pairwise.cons
        (fun z hz => by
          rcases List.mem_cons.1 hz with rfl | hz2
          · exact hc
          · exact htr x y z hc (List.rel_of_pairwise_cons h hz2))
        h
    · rw [if_neg hc]
      have hyx : le y x = true := (htot x y).resolve_left hc
      exact List.Pairwise.cons
        (fun z hz => by
          rcases mem_insertLe hz with rfl | hz2
          · exact hyx
          · exact List.rel_of_pairwise_cons h hz2)
        (ih h.of_cons)

theorem sortLe_pairwise_of {α : Type _} {le : α → α → Bool}
    (htot : ∀ a b, le a b = true ∨ le b a = true)
    (htr : ∀ a b c, le a b = true → le b c = true → le a c = true) :
    ∀ l : List α, (sortLe le l).Pairwise (fun a b => le a b = true) := by
  intro l
  induction l with
  | nil => exact List.Pairwise.nil
  | cons x xs ih => exact insertLe_pairwise_of htot htr x ih

theorem sortStrings_pairwise (l : List String) :
    (sortStrings l).Pairwise (fun a b => lexLe a.data b.data = true) :=
  sortLe_pairwise_of (fun a b => lexLe_total a.data b.data)
    (fun a b c => lexLe_trans a.data b.data c.data) l

theorem extract_matching_skills_sorted (rs js : List String) :
    (extract_matching_skills rs js).Pairwise (fun a b => lexLe a.data b.data = true) :=
  sortStrings_pairwise _

theorem extract_missing_skills_sorted (rs js : List String) :
    (extract_missing_skills rs js).Pairwise (fun a b => lexLe a.data b.data = true) :=
  sortStrings_pairwise _

theorem normalize_skill_list_sub_lower (l : List Char) :
    ∀ c ∈ normalize_skill_list l, ∃ d ∈ l, lowerChar d = c := by
  intro c hc
  simp only [normalize_skill_list] at hc
  have hc6 := mem_of_mem_pyStripL hc
  have hc5 := List.mem_of_mem_filter hc6
  have hcm := mem_of_mem_pyStripL hc5
  obtain ⟨d, hd4, rfl⟩ := List.mem_map.1 hcm
  refine ⟨d, ?_, rfl⟩
  have hd3 := mem_of_mem_pyStripL hd4
  have hd2 := stripLabelsOnce_subset _ hd3
  have hd1 := mem_of_mem_pyStripL hd2
  exact stripCategory_subset _ hd1

theorem displayClean_ne_empty {s : String} (h : normalize_skill s ≠ "") :
    displayClean s ≠ "" := by
  have hl : normalize_skill_list s.data ≠ [] := by
    intro he
    apply h
    rw [normalize_skill_def, he]
  cases heq : normalize_skill_list s.data with
  | nil => exact absurd heq hl
  | cons c t =>
    have hcm : c ∈ normalize_skill_list s.data := by
      rw [heq]; exact List.mem_cons_self _ _
    have heq2 := heq
    simp only [normalize_skill_list] at heq2
    have hcsp : pyIsSpace c = false := pyStripL_head_not_space heq2
    have hcp : punctCls c = false := normalize_skill_list_no_punct hcm
    obtain ⟨d, hd, hld⟩ := normalize_skill_list_sub_lower s.data c hcm
    have hdsp : pyIsSpace d = false := by
      cases hds : pyIsSpace d with
      | false => rfl
      | true =>
        have he := lowerChar_eq_self_of_space hds
        have hcd : c = d := hld.symm.trans he
        rw [hcd, hds] at hcsp
        exact absurd hcsp (by decide)
    have hddp : dispPunct d = false := by
      cases hds : dispPunct d with
      | false => rfl
      | true =>
        have he := lowerChar_eq_self_of_dispPunct hds
        have hcd : c = d := hld.symm.trans he
        have hpd := punctCls_of_dispPunct hds
        rw [hcd, hpd] at hcp
        exact absurd hcp (by decide)
    have hdm : d ∈ dropTrailing dispPunct (pyStripL s.data) :=
      mem_dropTrailing_of_not (mem_pyStripL_of_not hd hdsp) hddp
    intro hde
    have hnil : dropTrailing dispPunct (pyStripL s.data) = [] := congrArg String.data hde
    rw [hnil] at hdm
    cases hdm

theorem firstOccurrenceDedupAux_sublist : ∀ (l seen : List String),
    (firstOccurrenceDedupAux seen l).Sublist l := by
  intro l
  induction l with
  | nil => intro seen; exact List.nil_sublist _
  | cons s rest ih =>
    intro seen
    simp only [firstOccurrenceDedupAux]
    split
    · exact (ih _).cons₂ s
    · exact (ih _).cons s

theorem firstOccurrenceDedupAux_nodup : ∀ (l seen : List String),
    ((firstOccurrenceDedupAux seen l).map normalize_skill).Nodup ∧
    ∀ s ∈ firstOccurrenceDedupAux seen l, normalize_skill s ∉ seen := by
  intro l
  induction l with
  | nil => intro seen; exact ⟨List.nodup_nil, fun s hs => absurd hs (List.not_mem_nil s)⟩
  | cons s rest ih =>
    intro seen
    simp only [firstOccurrenceDedupAux]
    by_cases h1 : normalize_skill s ≠ "" ∧ normalize_skill s ∉ seen
    · rw [if_pos h1]
      obtain ⟨hnd, hseen⟩ := ih (normalize_skill s :: seen)
      constructor
      · simp only [List.map_cons, List.nodup_cons]
        refine ⟨fun hmem => ?_, hnd⟩
        obtain ⟨t, ht, he⟩ := List.mem_map.1 hmem
        exact (hseen t ht) (he ▸ List.mem_cons_self _ _)
      · intro t ht
        rcases List.mem_cons.1 ht with rfl | ht2
        · exact h1.2
        · exact fun hmem => hseen t ht2 (List.mem_cons_of_mem _ hmem)
    · rw [if_neg h1]
      exact ih seen

theorem cleanSkillGo_eq_firstAux : ∀ (l seen : List String),
    cleanSkillGo seen l = (firstOccurrenceDedupAux seen l).map displayClean := by
  intro l
  induction l with
  | nil => intro seen; rfl
  | cons s rest ih =>
    intro seen
    simp only [cleanSkillGo, firstOccurrenceDedupAux]
    by_cases h1 : normalize_skill s ≠ "" ∧ normalize_skill s ∉ seen
    · rw [if_pos h1, if_pos h1]
      rw [if_pos (displayClean_ne_empty h1.1), List.map_cons, ih]
    · rw [if_neg h1, if_neg h1, ih]

theorem cleanSkillList_eq_firstDedup (l : List String) :
    cleanSkillList l = (firstOccurrenceDedup l).map displayClean :=
  cleanSkillGo_eq_firstAux l []

theorem cleanSkillGo_length : ∀ (l seen : List String),
    (cleanSkillGo seen l).length ≤ l.length := by
  intro l
  induction l with
  | nil => intro seen; simp [cleanSkillGo]
  | cons s rest ih =>
    intro seen
    simp only [cleanSkillGo]
    split_ifs
    · simpa using Nat.succ_le_succ (ih _)
    · exact le_trans (ih _) (Nat.le_succ _)
    · exact le_trans (ih _) (Nat.le_succ _)

section RatEval3

attribute [local semireducible] Rat.mul Rat.inv Rat.add Rat.sub Rat.ofScientific

/-- C7 (counterexample): the skill lists are NOT ordered by discovery.
With no model (lexical path), the extractors sort alphabetically: for
resume skills discovered in the order `["b", "a"]` (all matching), the
the discovery-then-dedup order of the spec is `["b", "a"]`, but the returned
`matching_skills` is `["a", "b"]`. -/
theorem match_skill_lists_discovery_counterexample :
    rdSample.skills = ["b", "a"] ∧
    specOrderedDedup rdSample.skills = ["b", "a"] ∧
    (matchResume extNoEmbed rdSample jdSample none).matching_skills = ["a", "b"] ∧
    (matchResume extNoEmbed rdSample jdSample none).matching_skills ≠
      specOrderedDedup rdSample.skills := by
  refine ⟨rfl, by decide, by decide, by decide⟩

end RatEval3

/-- C7 (amended): the clean-up pass keeps exactly the FIRST occurrence of
each normalized-form class.  `matching_skills` equals, entry for entry, the
display-cleaned first-occurrence dedup (`firstOccurrenceDedup`, written from
the spec) of the selected matched list, an order-preserving sublist of it
with pairwise-distinct nonempty normalized forms; `missing_skills` likewise
over the first ten entries of the selected missing list.  The input order,
however, is NOT discovery order on the lexical path: for all inputs the
lexical extractors `extract_matching_skills` / `extract_missing_skills`
return lists sorted alphabetically (pairwise `lexLe` by code point). -/
theorem match_skill_lists_first_dedup_sorted (ext : Ext) (rd : ResumeData)
    (jd : JDData) (w : Option W3) :
    ((matchResume ext rd jd w).matching_skills =
        (firstOccurrenceDedup (rawSkillLists ext rd jd).1).map displayClean ∧
      (firstOccurrenceDedup (rawSkillLists ext rd jd).1).Sublist
        (rawSkillLists ext rd jd).1 ∧
      ((firstOccurrenceDedup (rawSkillLists ext rd jd).1).map normalize_skill).Nodup) ∧
    ((matchResume ext rd jd w).missing_skills =
        (firstOccurrenceDedup ((rawSkillLists ext rd jd).2.take 10)).map displayClean ∧
      (firstOccurrenceDedup ((rawSkillLists ext rd jd).2.take 10)).Sublist
        ((rawSkillLists ext rd jd).2.take 10) ∧
      ((firstOccurrenceDedup ((rawSkillLists ext rd jd).2.take 10)).map
        normalize_skill).Nodup) ∧
    (∀ rs js : List String,
      (extract_matching_skills rs js).Pairwise (fun a b => lexLe a.data b.data = true)) ∧
    (∀ rs js : List String,
      (extract_missing_skills rs js).Pairwise (fun a b => lexLe a.data b.data = true)) := by
  refine ⟨⟨?_, firstOccurrenceDedupAux_sublist _ _, (firstOccurrenceDedupAux_nodup _ _).1⟩,
    ⟨?_, firstOccurrenceDedupAux_sublist _ _, (firstOccurrenceDedupAux_nodup _ _).1⟩,
    fun rs js => extract_matching_skills_sorted rs js,
    fun rs js => extract_missing_skills_sorted rs js⟩
  · show cleanSkillList (rawSkillLists ext rd jd).1 = _
    exact cleanSkillList_eq_firstDedup _
  · show cleanSkillList ((rawSkillLists ext rd jd).2.take 10) = _
    exact cleanSkillList_eq_firstDedup _

/-! ## Claim C9: at most ten missing skills -/

/-- C9: the `missing_skills` list of every `MatchResult` contains at most
10 entries; every selection branch truncates with `[:10]` and the
clean-up pass only removes entries. -/
theorem missing_skills_at_most_ten (ext : Ext) (rd : ResumeData)
    (jd : JDData) (w : Option W3) :
    (matchResume ext rd jd w).missing_skills.length ≤ 10 := by
  show (cleanSkillList ((rawSkillLists ext rd jd).2.take 10)).length ≤ 10
  exact le_trans (cleanSkillGo_length _ _)
    (List.length_take_le 10 ((rawSkillLists ext rd jd).2))

/-! ## Claim C10: the semantic-similarity field -/

/-- C10: the reported `semantic_similarity` of every `MatchResult` lies in
`[0, 100]` (the cosine value is clamped to `[0, 1]` before scaling), and
it is exactly `0.0` whenever either document embedding is unavailable
(failed, missing or empty). -/
theorem semantic_similarity_field_clamped (ext : Ext) (rd : ResumeData)
    (jd : JDData) (w : Option W3) :
    0 ≤ (matchResume ext rd jd w).semantic_similarity ∧
    (matchResume ext rd jd w).semantic_similarity ≤ 100 ∧
    (embUsable ext rd jd = false →
      (matchResume ext rd jd w).semantic_similarity = 0) := by
  have hfield : (matchResume ext rd jd w).semantic_similarity =
      pyRound2 (max 0 (min 100 (semanticOf ext rd jd * 100))) := rfl
  refine ⟨?_, ?_, ?_⟩
  · rw [hfield]
    have h0 := le_pyRound2_intCast (n := 0)
      (q := max 0 (min 100 (semanticOf ext rd jd * 100)))
      (by push_cast; exact le_max_left _ _)
    simpa using h0
  · rw [hfield]
    have h100 := pyRound2_le_intCast (n := 100)
      (q := max 0 (min 100 (semanticOf ext rd jd * 100)))
      (by push_cast; exact max_le (by norm_num) (min_le_left _ _))
    simpa using h100
  · intro hu
    have hz : semanticOf ext rd jd = 0 := by
      unfold embUsable at hu
      simp only [semanticOf]
      cases hp : embPairOf ext rd jd with
      | none => rfl
      | some pr =>
        obtain ⟨r, j⟩ := pr
        rw [hp] at hu
        have hu2 : (!j.isEmpty && !r.isEmpty) = false := by simpa using hu
        have hcond : ¬(j ≠ [] ∧ r ≠ []) := by
          rintro ⟨hjne, hrne⟩
          have hj2 : j.isEmpty = false := by simpa [List.isEmpty_iff] using hjne
          have hr2 : r.isEmpty = false := by simpa [List.isEmpty_iff] using hrne
          rw [hj2, hr2] at hu2
          simp at hu2
        show (if j ≠ [] ∧ r ≠ [] then max 0 (min 1 (ext.cosine r j)) else 0) = 0
        rw [if_neg hcond]
    rw [hfield, hz]
    norm_num [pyRound2, roundHalfEven]

section RatEval4

attribute [local semireducible] Rat.mul Rat.inv Rat.add Rat.sub Rat.ofScientific

/-- C10 witness: a failing embedder yields `semantic_similarity = 0`. -/
theorem semantic_similarity_field_witness :
    embUsable extNoEmbed rdSample jdSample = false ∧
    (matchResume extNoEmbed rdSample jdSample none).semantic_similarity = 0 :=
  ⟨by decide,
    (semantic_similarity_field_clamped extNoEmbed rdSample jdSample none).2.2 (by decide)⟩

end RatEval4

end Resumate
